import Mathlib

/-!
Verification of the gpx_street_extractor repository against its design
specification.

The development shallowly embeds `src/gpx_street_extractor.py`:

* `format_time_delta` models the Python function of the same name, with
  float seconds modelled as rationals (`int(x // 60)` and `int(x % 60)`
  become integer floors of exact rational arithmetic).
* `collect_points` models the GPX point collector of the same name
  (tracks, then routes, then waypoints).
* The body of the per-sample loop of `process_points` is embedded as
  `processStep`; the loop itself as `processRun`; the end-of-sequence
  finalization block as `finalizeStep`; the start-time scan and the
  offset computation as `startTime` and `offsetOf`; the downsampling
  and classification of `process_points` as `retainedInputs` (each
  sample carries the label the classifier returns for it, since the
  classifier is an external collaborator).

Printed events are modelled as returned lists of
`(offsetSeconds, streetName)` pairs.
-/

namespace GpxStreetExtractor

/-- State of the debouncer inside `process_points`: the variables
`confirmed_street`, `candidate_street` and `candidate_times`. -/
structure DebounceState where
  confirmed : Option String
  candStreet : Option String
  candTimes : List ℚ
deriving DecidableEq

/-- Initial debouncer state: `confirmed_street = None`,
`candidate_street = None`, `candidate_times = []`. -/
def initState : DebounceState := ⟨none, none, []⟩

/-- One iteration of the loop body of `process_points` (lines 160-183 of
the source), given the classifier's label for the current retained sample
and the sample's time offset.  Returns the updated state and the event
printed by this iteration, if any.  `if not street` in Python skips both
`None` and the empty string.  Note that the confirming branch assigns
`confirmed_street = candidate_street` but does not reset
`candidate_street` or `candidate_times`. -/
def processStep (threshold : ℕ) (st : DebounceState) (street : Option String)
    (timeDiff : ℚ) : DebounceState × Option (ℚ × String) :=
  match street with
  | none => (st, none)
  | some s =>
    if s = "" then (st, none)
    else if some s = st.confirmed then
      ({ st with candStreet := none, candTimes := [] }, none)
    else if some s = st.candStreet then
      let times := st.candTimes ++ [timeDiff]
      if threshold ≤ times.length then
        (⟨some s, some s, times⟩, some (times.headI, s))
      else
        ({ st with candTimes := times }, none)
    else
      ({ st with candStreet := some s, candTimes := [timeDiff] }, none)

/-- The per-sample loop of `process_points`, folded over the stream of
(label, time offset) pairs of the retained samples.  Returns the final
state and the list of printed events in print order. -/
def processRun (threshold : ℕ) :
    DebounceState → List (Option String × ℚ) → DebounceState × List (ℚ × String)
  | st, [] => (st, [])
  | st, (street, t) :: rest =>
    let r := processStep threshold st street t
    let rr := processRun threshold r.1 rest
    (rr.1, r.2.toList ++ rr.2)

/-- The end-of-sequence finalization block of `process_points`
(lines 187-190 of the source):
`if candidate_street and candidate_street != confirmed_street:
   if len(candidate_times) >= final_threshold: print(...)`. -/
def finalizeStep (finalThreshold : ℕ) (st : DebounceState) : Option (ℚ × String) :=
  match st.candStreet with
  | none => none
  | some c =>
    if c = "" then none
    else if some c = st.confirmed then none
    else if finalThreshold ≤ st.candTimes.length then
      some (st.candTimes.headI, c)
    else none

/-- A collected point as seen by the debouncing stage: the label the
classifier returns for its coordinates, and its optional timestamp
(seconds, relative to an arbitrary epoch). -/
structure Sample where
  label : Option String
  time : Option ℚ
deriving DecidableEq

/-- The start-time scan of `process_points` (lines 130-135 of the
source): the first non-`None` timestamp of the full point list. -/
def startTime (pts : List Sample) : Option ℚ :=
  (pts.filterMap Sample.time).head?

/-- The offset computation of `process_points` (lines 148-152):
`(point_time - start_time).total_seconds()` when both are present
(`datetime` values are always truthy), else `0.0`. -/
def offsetOf (startT pointT : Option ℚ) : ℚ :=
  match startT, pointT with
  | some s, some t => t - s
  | _, _ => 0

/-- The (label, time offset) pairs reaching the debouncing logic of
`process_points`: samples at indices `0, N, 2N, …` of the full list
(`i % downsample == 0`), each paired with its offset against the
run-wide start time. -/
def retainedInputs (downsample : ℕ) (pts : List Sample) :
    List (Option String × ℚ) :=
  (pts.enum.filter (fun ip => ip.1 % downsample == 0)).map
    (fun ip => (ip.2.label, offsetOf (startTime pts) ip.2.time))

/-- The whole of `process_points`: run the debouncer over the retained
samples from the initial state, then apply the finalization block.
Returns the printed events in order. -/
def process_points (downsample threshold finalThreshold : ℕ)
    (pts : List Sample) : List (ℚ × String) :=
  let r := processRun threshold initState (retainedInputs downsample pts)
  r.2 ++ (finalizeStep finalThreshold r.1).toList

/-- A GPX point: latitude, longitude, optional timestamp.  The tuple
`(pt.latitude, pt.longitude, pt.time)` built by `collect_points`. -/
structure GeoPoint where
  latitude : ℚ
  longitude : ℚ
  time : Option ℚ
deriving DecidableEq

/-- A track segment: a list of points. -/
structure TrackSegment where
  points : List GeoPoint
deriving DecidableEq

/-- A track: a list of segments. -/
structure Track where
  segments : List TrackSegment
deriving DecidableEq

/-- A route: a list of points. -/
structure Route where
  points : List GeoPoint
deriving DecidableEq

/-- A parsed GPX document: tracks, routes, waypoints. -/
structure Gpx where
  tracks : List Track
  routes : List Route
  waypoints : List GeoPoint
deriving DecidableEq

/-- All track points of a GPX document, in document order (the doubly
nested loop of stage 1 of `collect_points`). -/
def trackPoints (g : Gpx) : List GeoPoint :=
  g.tracks.flatMap (fun t => t.segments.flatMap TrackSegment.points)

/-- All route points of a GPX document, in document order (the loop of
stage 2 of `collect_points`). -/
def routePoints (g : Gpx) : List GeoPoint :=
  g.routes.flatMap Route.points

/-- `collect_points` (lines 71-105 of the source).  The accumulating
`points` list is returned as soon as it is non-empty after the tracks
stage, then after the routes stage, and unconditionally after the
waypoints stage.  The `if gpx.tracks:` / `if gpx.routes:` /
`if gpx.waypoints:` guards of the source are dropped: iterating over an
empty list appends nothing and an empty `points` never returns early,
so they do not affect the result. -/
def collect_points (g : Gpx) : List GeoPoint :=
  let points := trackPoints g
  if points ≠ [] then points
  else
    let points := points ++ routePoints g
    if points ≠ [] then points
    else points ++ g.waypoints

/-- The Python format specifier `f"{n:02d}"`: left-pad the decimal
representation with zeros to width 2. -/
def pad2 (n : ℤ) : String :=
  let s := toString n
  if s.length < 2 then "0" ++ s else s

/-- `format_time_delta` (lines 8-14 of the source).
`int(seconds // 60)` is the floor of `seconds / 60`; `int(seconds % 60)`
is the floor of the (always non-negative) remainder
`seconds - 60 * (seconds // 60)`, since truncation and floor agree on
non-negative values. -/
def format_time_delta (seconds : ℚ) : String :=
  let mm : ℤ := ⌊seconds / 60⌋
  let ss : ℤ := ⌊seconds - ((60 * ⌊seconds / 60⌋ : ℤ) : ℚ)⌋
  pad2 mm ++ ":" ++ pad2 ss

/-! ### Helper lemmas -/

/-- Unfolding lemma for `processRun` on a cons cell. -/
lemma processRun_cons (θ : ℕ) (st : DebounceState) (street : Option String)
    (t : ℚ) (rest : List (Option String × ℚ)) :
    processRun θ st ((street, t) :: rest) =
      ((processRun θ (processStep θ st street t).1 rest).1,
       (processStep θ st street t).2.toList ++
         (processRun θ (processStep θ st street t).1 rest).2) := rfl

/-- Unfolding lemma for `processStep` on a present label. -/
lemma processStep_some (θ : ℕ) (st : DebounceState) (s : String) (T : ℚ) :
    processStep θ st (some s) T =
      if s = "" then (st, none)
      else if some s = st.confirmed then
        ({ st with candStreet := none, candTimes := [] }, none)
      else if some s = st.candStreet then
        if θ ≤ (st.candTimes ++ [T]).length then
          (⟨some s, some s, st.candTimes ++ [T]⟩,
           some ((st.candTimes ++ [T]).headI, s))
        else ({ st with candTimes := st.candTimes ++ [T] }, none)
      else ({ st with candStreet := some s, candTimes := [T] }, none) := rfl

/-- Complete case analysis of one debouncing step: skip, reset on the
confirmed street, a fresh candidate, a below-threshold hit, or a
confirming hit. -/
lemma processStep_cases (θ : ℕ) (st : DebounceState) (street : Option String)
    (T : ℚ) :
    processStep θ st street T = (st, none)
    ∨ processStep θ st street T = ({ st with candStreet := none, candTimes := [] }, none)
    ∨ (∃ s, street = some s ∧ s ≠ "" ∧ st.candStreet ≠ some s ∧
        processStep θ st street T =
          ({ st with candStreet := some s, candTimes := [T] }, none))
    ∨ (∃ s, street = some s ∧ s ≠ "" ∧ st.candStreet = some s ∧
        processStep θ st street T =
          ({ st with candTimes := st.candTimes ++ [T] }, none))
    ∨ (∃ s, street = some s ∧ s ≠ "" ∧ st.candStreet = some s ∧
        processStep θ st street T =
          (⟨some s, some s, st.candTimes ++ [T]⟩,
           some ((st.candTimes ++ [T]).headI, s))) := by
  cases street with
  | none => exact Or.inl rfl
  | some s =>
    by_cases h1 : s = ""
    · exact Or.inl (by rw [processStep_some, if_pos h1])
    · by_cases h2 : some s = st.confirmed
      · exact Or.inr (Or.inl (by rw [processStep_some, if_neg h1, if_pos h2]))
      · by_cases h3 : some s = st.candStreet
        · by_cases h4 : θ ≤ (st.candTimes ++ [T]).length
          · exact Or.inr (Or.inr (Or.inr (Or.inr ⟨s, rfl, h1, h3.symm,
              by rw [processStep_some, if_neg h1, if_neg h2, if_pos h3, if_pos h4]⟩)))
          · exact Or.inr (Or.inr (Or.inr (Or.inl ⟨s, rfl, h1, h3.symm,
              by rw [processStep_some, if_neg h1, if_neg h2, if_pos h3, if_neg h4]⟩)))
        · exact Or.inr (Or.inr (Or.inl ⟨s, rfl, h1, fun hc => h3 hc.symm,
            by rw [processStep_some, if_neg h1, if_neg h2, if_neg h3]⟩))

/-- A single step preserves the structural invariants: the candidate
street is never the empty string, the confirmed street is never the
empty string, and a live candidate has at least one hit. -/
lemma processStep_wf (θ : ℕ) (st : DebounceState) (street : Option String)
    (T : ℚ) (h1 : st.candStreet ≠ some "") (h2 : st.confirmed ≠ some "")
    (h3 : st.candStreet ≠ none → st.candTimes ≠ []) :
    (processStep θ st street T).1.candStreet ≠ some ""
    ∧ (processStep θ st street T).1.confirmed ≠ some ""
    ∧ ((processStep θ st street T).1.candStreet ≠ none →
        (processStep θ st street T).1.candTimes ≠ []) := by
  rcases processStep_cases θ st street T with h | h | ⟨s, _, hs, _, h⟩
    | ⟨s, _, hs, hcs, h⟩ | ⟨s, _, hs, hcs, h⟩ <;> rw [h] <;> simp_all

/-- A whole run preserves the structural invariants of `processStep_wf`. -/
lemma processRun_wf (θ : ℕ) :
    ∀ (inputs : List (Option String × ℚ)) (st : DebounceState),
      st.candStreet ≠ some "" → st.confirmed ≠ some "" →
      (st.candStreet ≠ none → st.candTimes ≠ []) →
      (processRun θ st inputs).1.candStreet ≠ some ""
      ∧ (processRun θ st inputs).1.confirmed ≠ some ""
      ∧ ((processRun θ st inputs).1.candStreet ≠ none →
          (processRun θ st inputs).1.candTimes ≠ [])
  | [], _, h1, h2, h3 => ⟨h1, h2, h3⟩
  | (street, t) :: rest, st, h1, h2, h3 => by
    have hw := processStep_wf θ st street t h1 h2 h3
    exact processRun_wf θ rest (processStep θ st street t).1 hw.1 hw.2.1 hw.2.2

/-! ### Claims -/

/-- Claim C8: a null label leaves the whole state unchanged and emits
nothing, and deleting a null-labelled entry anywhere in the stream does
not change the run at all (neither the final state nor the output). -/
theorem null_label_skip (θ : ℕ) (st : DebounceState) (T t : ℚ)
    (l1 l2 : List (Option String × ℚ)) :
    processStep θ st none T = (st, none)
    ∧ processRun θ st (l1 ++ (none, t) :: l2) = processRun θ st (l1 ++ l2) := by
  refine ⟨rfl, ?_⟩
  induction l1 generalizing st with
  | nil => simp [processRun_cons, processStep]
  | cons p tl ih =>
    obtain ⟨street, u⟩ := p
    rw [List.cons_append, List.cons_append, processRun_cons, processRun_cons, ih]

/-- Claim C10: an empty-string label is skipped exactly like a null
label; no state arising from a run has the empty string as candidate or
confirmed street; and finalization never emits an empty street name. -/
theorem empty_label_ignored (θ fθ : ℕ) (st : DebounceState) (T t : ℚ)
    (inputs : List (Option String × ℚ)) :
    processStep θ st (some "") T = (st, none)
    ∧ (processRun θ initState inputs).1.candStreet ≠ some ""
    ∧ (processRun θ initState inputs).1.confirmed ≠ some ""
    ∧ finalizeStep fθ st ≠ some (t, "") := by
  have hwf := processRun_wf θ inputs initState (by simp [initState])
    (by simp [initState]) (by simp [initState])
  refine ⟨by simp [processStep], hwf.1, hwf.2.1, ?_⟩
  cases hcs : st.candStreet with
  | none => simp [finalizeStep, hcs]
  | some c =>
    by_cases hc : c = ""
    · simp [finalizeStep, hcs, hc]
    · simp only [finalizeStep, hcs]
      rw [if_neg hc]
      split
      · simp
      · split
        · simp [hc]
        · simp

/-- Claim C1 counterexample: a confirming step does NOT clear the
candidate.  With threshold 2, candidate "A" with one hit at offset 0,
the step on label "A" at offset 5 emits the Confirmed event (0, "A")
and sets the confirmed street, but the candidate street is still
`some "A"` afterwards, not `none`. -/
theorem confirm_keeps_candidate_cex :
    (processStep 2 ⟨none, some "A", [0]⟩ (some "A") 5).2 = some (0, "A")
    ∧ (processStep 2 ⟨none, some "A", [0]⟩ (some "A") 5).1.confirmed = some "A"
    ∧ (processStep 2 ⟨none, some "A", [0]⟩ (some "A") 5).1.candStreet ≠ none := by
  refine ⟨rfl, rfl, by simp [processStep]⟩

/-- Claim C1 (amended): when the label equals the live candidate's name
and differs from the confirmed street, the step appends the offset to
the hit list; if the list reaches the threshold it emits exactly one
Confirmed event carrying the FIRST element of the hit list and sets the
confirmed street to the label, but the candidate is NOT cleared — its
name and (appended) hit list survive the confirming step; below the
threshold only the hit list grows.  The first element of the hit list is
unchanged by the append. -/
theorem confirm_step_spec (θ : ℕ) (st : DebounceState) (s : String) (T : ℚ)
    (hs : s ≠ "") (hc : st.candStreet = some s) (hcf : some s ≠ st.confirmed) :
    (θ ≤ (st.candTimes ++ [T]).length →
      processStep θ st (some s) T =
        (⟨some s, some s, st.candTimes ++ [T]⟩,
         some ((st.candTimes ++ [T]).headI, s)))
    ∧ ((st.candTimes ++ [T]).length < θ →
      processStep θ st (some s) T =
        ({ st with candTimes := st.candTimes ++ [T] }, none))
    ∧ (st.candTimes ≠ [] → (st.candTimes ++ [T]).headI = st.candTimes.headI) := by
  refine ⟨fun h => ?_, fun h => ?_, fun h => ?_⟩
  · rw [processStep_some, if_neg hs, if_neg hcf, if_pos hc.symm, if_pos h]
  · rw [processStep_some, if_neg hs, if_neg hcf, if_pos hc.symm,
      if_neg (not_le.mpr h)]
  · rcases hct : st.candTimes with _ | ⟨a, l⟩
    · exact absurd hct h
    · rfl

/-- Witness for `confirm_step_spec` at threshold 2, candidate "A" with
hit list [3], label "A" at offset 7. -/
theorem confirm_step_spec_witness :
    ((2 ≤ (([3] : List ℚ) ++ [7]).length →
      processStep 2 ⟨none, some "A", [3]⟩ (some "A") 7 =
        (⟨some "A", some "A", ([3] : List ℚ) ++ [7]⟩,
         some ((([3] : List ℚ) ++ [7]).headI, "A")))
     ∧ ((([3] : List ℚ) ++ [7]).length < 2 →
      processStep 2 ⟨none, some "A", [3]⟩ (some "A") 7 =
        ({ (⟨none, some "A", [3]⟩ : DebounceState) with
            candTimes := ([3] : List ℚ) ++ [7] }, none))
     ∧ (([3] : List ℚ) ≠ [] →
        ((([3] : List ℚ) ++ [7]).headI = ([3] : List ℚ).headI))) :=
  confirm_step_spec 2 ⟨none, some "A", [3]⟩ "A" 7 (by decide) rfl (by simp)

/-- Claim C2 counterexample: with confirmed street "A" and threshold 2,
the retained label sequence [B, B, A] DOES emit a Confirmed event for B:
the second consecutive B already reaches the threshold, before the
third label is seen. -/
theorem return_to_known_cex :
    ((0 : ℚ), "B") ∈ (processRun 2 ⟨some "A", none, []⟩
      [(some "B", 0), (some "B", 1), (some "A", 2)]).2 := by
  simp [processRun_cons, processStep, processRun]

/-- Claim C2 (amended): with confirmed street "A" and threshold 3, the
retained label sequence [B, B, A] never confirms B — the third label
(equal to the confirmed street) clears the candidate before the
threshold is reached, and finalization then emits nothing either. -/
theorem return_to_known_clears (a b c : ℚ) (fθ : ℕ) :
    processRun 3 ⟨some "A", none, []⟩
      [(some "B", a), (some "B", b), (some "A", c)] = (⟨some "A", none, []⟩, [])
    ∧ finalizeStep fθ ⟨some "A", none, []⟩ = none := by
  constructor
  · simp [processRun_cons, processStep, processRun]
  · rfl

/-- Claim C5: from the initial state with threshold 3, the retained
label sequence [A, A, B, A, A, A, A] emits exactly one Confirmed event,
for street A, at the offset of the fourth label (the first A of the
final run), never confirms B, and leaves no live candidate, so
finalization emits nothing for any final threshold. -/
theorem noise_rejection (t1 t2 t3 t4 t5 t6 t7 : ℚ) (fθ : ℕ) :
    processRun 3 initState
      [(some "A", t1), (some "A", t2), (some "B", t3), (some "A", t4),
       (some "A", t5), (some "A", t6), (some "A", t7)] =
      (⟨some "A", none, []⟩, [(t4, "A")])
    ∧ finalizeStep fθ
        (processRun 3 initState
          [(some "A", t1), (some "A", t2), (some "B", t3), (some "A", t4),
           (some "A", t5), (some "A", t6), (some "A", t7)]).1 = none := by
  constructor
  · simp [processRun_cons, processStep, processRun, initState]
  · rfl

/-- Floor commutes with division by 60: the rational floor of `q / 60`
is the integer (Euclidean) quotient of `⌊q⌋` by 60. -/
lemma floor_div_sixty (q : ℚ) : ⌊q / 60⌋ = ⌊q⌋ / 60 := by
  have h : ∀ z : ℤ, z ≤ ⌊q / 60⌋ ↔ z ≤ ⌊q⌋ / 60 := by
    intro z
    rw [Int.le_floor, le_div_iff₀ (by norm_num : (0:ℚ) < 60),
      Int.le_ediv_iff_mul_le (by norm_num : (0:ℤ) < 60), Int.le_floor]
    push_cast
    rfl
  exact le_antisymm ((h _).mp le_rfl) ((h _).mpr le_rfl)

/-- Claim C9: for a non-negative offset the printed string is
`floor(q/60)` and `floor(q) mod 60`, each rendered through the
zero-padding `pad2` and separated by a colon; the minutes are not
reduced modulo 60 (an offset of at least 3600 seconds prints a minutes
field greater than 59), and 3700.0 prints as "61:40" (65.0 as "01:05",
showing the zero padding). -/
theorem format_time_delta_spec (q : ℚ) (_h : 0 ≤ q) :
    format_time_delta q = pad2 (⌊q⌋ / 60) ++ ":" ++ pad2 (⌊q⌋ % 60)
    ∧ (3600 ≤ q → 59 < ⌊q⌋ / 60)
    ∧ format_time_delta 3700 = "61:40"
    ∧ format_time_delta 65 = "01:05" := by
  refine ⟨?_, fun h36 => ?_, ?_, ?_⟩
  · have h2 : ⌊q - ((60 * ⌊q / 60⌋ : ℤ) : ℚ)⌋ = ⌊q⌋ % 60 := by
      rw [Int.floor_sub_int, floor_div_sixty, Int.emod_def]
    show pad2 ⌊q / 60⌋ ++ ":" ++ pad2 ⌊q - ((60 * ⌊q / 60⌋ : ℤ) : ℚ)⌋ = _
    rw [h2, floor_div_sixty]
  · have h1 : (3600 : ℤ) ≤ ⌊q⌋ := Int.le_floor.mpr (by exact_mod_cast h36)
    omega
  · have e1 : ⌊(3700 : ℚ) / 60⌋ = 61 := by norm_num [Int.floor_eq_iff]
    show pad2 ⌊(3700 : ℚ) / 60⌋ ++ ":" ++
      pad2 ⌊(3700 : ℚ) - ((60 * ⌊(3700 : ℚ) / 60⌋ : ℤ) : ℚ)⌋ = "61:40"
    rw [e1]
    have e2 : ⌊(3700 : ℚ) - ((60 * (61 : ℤ) : ℤ) : ℚ)⌋ = 40 := by
      norm_num [Int.floor_eq_iff]
    rw [e2]
    decide
  · have e1 : ⌊(65 : ℚ) / 60⌋ = 1 := by norm_num [Int.floor_eq_iff]
    show pad2 ⌊(65 : ℚ) / 60⌋ ++ ":" ++
      pad2 ⌊(65 : ℚ) - ((60 * ⌊(65 : ℚ) / 60⌋ : ℤ) : ℚ)⌋ = "01:05"
    rw [e1]
    have e2 : ⌊(65 : ℚ) - ((60 * (1 : ℤ) : ℤ) : ℚ)⌋ = 5 := by
      norm_num [Int.floor_eq_iff]
    rw [e2]
    decide

/-- Witness for `format_time_delta_spec` at offset 3700. -/
theorem format_time_delta_spec_witness :
    (format_time_delta 3700 =
      pad2 (⌊(3700 : ℚ)⌋ / 60) ++ ":" ++ pad2 (⌊(3700 : ℚ)⌋ % 60))
    ∧ (3600 ≤ (3700 : ℚ) → 59 < ⌊(3700 : ℚ)⌋ / 60)
    ∧ format_time_delta 3700 = "61:40"
    ∧ format_time_delta 65 = "01:05" :=
  format_time_delta_spec 3700 (by norm_num)

/-- Claim C3: for the state reached after processing any retained input
stream from the initial state, if a candidate is live and its name
differs from the confirmed street, finalization emits exactly the event
`(hitTimes[0], candidate.name)` when the hit list has at least
`finalThreshold` elements, and emits nothing when it has fewer. -/
theorem finalize_spec (θ fθ : ℕ) (inputs : List (Option String × ℚ))
    (c : String)
    (hc : (processRun θ initState inputs).1.candStreet = some c)
    (hne : some c ≠ (processRun θ initState inputs).1.confirmed) :
    (fθ ≤ (processRun θ initState inputs).1.candTimes.length →
      finalizeStep fθ (processRun θ initState inputs).1 =
        some ((processRun θ initState inputs).1.candTimes.headI, c))
    ∧ ((processRun θ initState inputs).1.candTimes.length < fθ →
      finalizeStep fθ (processRun θ initState inputs).1 = none) := by
  have hwf := processRun_wf θ inputs initState (by simp [initState])
    (by simp [initState]) (by simp [initState])
  have hcne : c ≠ "" := fun h => hwf.1 (h ▸ hc)
  constructor
  · intro hlen
    simp [finalizeStep, hc, hcne, hne, hlen]
  · intro hlen
    simp [finalizeStep, hc, hcne, hne, not_le.mpr hlen]

/-- Witness for `finalize_spec`: two trailing "B" hits with threshold 3
and final threshold 2. -/
theorem finalize_spec_witness :
    (2 ≤ (processRun 3 initState
        [(some "B", 0), (some "B", 1)]).1.candTimes.length →
      finalizeStep 2 (processRun 3 initState
        [(some "B", 0), (some "B", 1)]).1 =
        some ((processRun 3 initState
          [(some "B", 0), (some "B", 1)]).1.candTimes.headI, "B"))
    ∧ ((processRun 3 initState
        [(some "B", 0), (some "B", 1)]).1.candTimes.length < 2 →
      finalizeStep 2 (processRun 3 initState
        [(some "B", 0), (some "B", 1)]).1 = none) :=
  finalize_spec 3 2 [(some "B", 0), (some "B", 1)] "B" rfl (by decide)

/-- If the start-time scan returns a timestamp, it is the timestamp of
the first sample that has one: every earlier sample is untimed. -/
lemma startTime_eq_some {pts : List Sample} {s : ℚ}
    (h : startTime pts = some s) :
    ∃ l1 p l2, pts = l1 ++ p :: l2 ∧ p.time = some s ∧
      ∀ q ∈ l1, q.time = none := by
  induction pts with
  | nil => simp [startTime] at h
  | cons p rest ih =>
    rcases hp : p.time with _ | t
    · have h' : startTime rest = some s := by
        simpa [startTime, List.filterMap_cons, hp] using h
      obtain ⟨l1, p', l2, heq, hpt, hnone⟩ := ih h'
      refine ⟨p :: l1, p', l2, by rw [heq, List.cons_append], hpt, ?_⟩
      intro q hq
      rcases List.mem_cons.mp hq with rfl | hq'
      · exact hp
      · exact hnone q hq'
    · have ht : t = s := by
        simpa [startTime, List.filterMap_cons, hp] using h
      exact ⟨[], p, rest, rfl, by rw [hp, ht], by simp⟩

/-- If no sample carries a timestamp, the start-time scan finds none. -/
lemma startTime_eq_none {pts : List Sample}
    (h : ∀ p ∈ pts, p.time = none) : startTime pts = none := by
  unfold startTime
  rw [List.head?_eq_none_iff]
  exact List.filterMap_eq_nil_iff.mpr h

/-- Claim C6: the start time is the timestamp of the first sample of
the FULL sequence (before downsampling) that has one; when no sample
has a timestamp every retained offset is 0; and a retained sample
(index divisible by the stride) with timestamp `t` reaches the
debouncer with offset `t - s` against the run-wide start time `s`. -/
theorem start_time_spec (pts : List Sample) (ds : ℕ) :
    (∀ s, startTime pts = some s →
      ∃ l1 p l2, pts = l1 ++ p :: l2 ∧ p.time = some s ∧
        ∀ q ∈ l1, q.time = none)
    ∧ ((∀ p ∈ pts, p.time = none) →
        ∀ x ∈ retainedInputs ds pts, x.2 = 0)
    ∧ (∀ s t (i : ℕ) (hi : i < pts.length), startTime pts = some s →
        (pts.get ⟨i, hi⟩).time = some t → i % ds = 0 →
        ((pts.get ⟨i, hi⟩).label, t - s) ∈ retainedInputs ds pts) := by
  refine ⟨fun s hs => startTime_eq_some hs, fun hall x hx => ?_, ?_⟩
  · obtain ⟨ip, _, rfl⟩ := List.mem_map.mp hx
    rw [startTime_eq_none hall]
    rcases ip.2.time with _ | t <;> rfl
  · intro s t i hi hst ht hmod
    unfold retainedInputs
    apply List.mem_map.mpr
    refine ⟨(i, pts.get ⟨i, hi⟩), List.mem_filter.mpr ⟨?_, ?_⟩, ?_⟩
    · exact List.mem_enum_iff_getElem?.mpr
        (by simp [List.getElem?_eq_getElem hi])
    · simpa using hmod
    · have ht' : pts[i].time = some t := ht
      simp [offsetOf, hst, ht']

/-- Witness for `start_time_spec`: a two-sample list whose first sample
is untimed, plus an untimed single-sample list for the all-untimed
part. -/
theorem start_time_spec_witness :
    (∃ l1 p l2,
      ([⟨none, none⟩, ⟨some "A", some 5⟩] : List Sample) = l1 ++ p :: l2 ∧
        p.time = some 5 ∧ ∀ q ∈ l1, q.time = none)
    ∧ (∀ x ∈ retainedInputs 1 ([⟨some "A", none⟩] : List Sample), x.2 = 0)
    ∧ ((([⟨none, none⟩, ⟨some "A", some 5⟩] : List Sample).get
          ⟨1, by norm_num⟩).label, (5 : ℚ) - 5) ∈
        retainedInputs 1 ([⟨none, none⟩, ⟨some "A", some 5⟩] : List Sample) :=
  ⟨(start_time_spec [⟨none, none⟩, ⟨some "A", some 5⟩] 1).1 5 rfl,
   (start_time_spec [⟨some "A", none⟩] 1).2.1 (by decide),
   (start_time_spec [⟨none, none⟩, ⟨some "A", some 5⟩] 1).2.2 5 5 1
     (by norm_num) rfl rfl rfl⟩

/-- The flattened track points are empty exactly when every segment of
every track is empty. -/
lemma trackPoints_eq_nil_iff (g : Gpx) :
    trackPoints g = [] ↔ ∀ t ∈ g.tracks, ∀ sg ∈ t.segments, sg.points = [] := by
  unfold trackPoints
  rw [List.flatMap_eq_nil_iff]
  constructor
  · intro h t ht sg hsg
    exact List.flatMap_eq_nil_iff.mp (h t ht) sg hsg
  · intro h t ht
    exact List.flatMap_eq_nil_iff.mpr (h t ht)

/-- The flattened route points are empty exactly when every route is
empty. -/
lemma routePoints_eq_nil_iff (g : Gpx) :
    routePoints g = [] ↔ ∀ r ∈ g.routes, r.points = [] := by
  unfold routePoints
  exact List.flatMap_eq_nil_iff

/-- Unfolding lemma for `collect_points`. -/
lemma collect_points_eq (g : Gpx) :
    collect_points g =
      (if trackPoints g ≠ [] then trackPoints g
       else if trackPoints g ++ routePoints g ≠ [] then
         trackPoints g ++ routePoints g
       else (trackPoints g ++ routePoints g) ++ g.waypoints) := rfl

/-- Claim C7: the collector prefers track points (all of them, in
document order) whenever any track segment is non-empty, else route
points whenever any route is non-empty, else the waypoints — in
particular an entirely empty document yields the empty list, with no
error path. -/
theorem collect_points_priority (g : Gpx) :
    ((∃ t ∈ g.tracks, ∃ sg ∈ t.segments, sg.points ≠ []) →
      collect_points g = trackPoints g)
    ∧ ((∀ t ∈ g.tracks, ∀ sg ∈ t.segments, sg.points = []) →
        (∃ r ∈ g.routes, r.points ≠ []) →
        collect_points g = routePoints g)
    ∧ ((∀ t ∈ g.tracks, ∀ sg ∈ t.segments, sg.points = []) →
        (∀ r ∈ g.routes, r.points = []) →
        collect_points g = g.waypoints) := by
  refine ⟨fun hex => ?_, fun hall hex => ?_, fun hall hr => ?_⟩
  · have h1 : trackPoints g ≠ [] := by
      intro h0
      obtain ⟨t, ht, sg, hsg, hne⟩ := hex
      exact hne ((trackPoints_eq_nil_iff g).mp h0 t ht sg hsg)
    rw [collect_points_eq, if_pos h1]
  · have h0 : trackPoints g = [] := (trackPoints_eq_nil_iff g).mpr hall
    have hrne : routePoints g ≠ [] := by
      intro hr0
      obtain ⟨r, hrr, hne⟩ := hex
      exact hne ((routePoints_eq_nil_iff g).mp hr0 r hrr)
    rw [collect_points_eq, if_neg (by simp [h0]), h0, List.nil_append,
      if_pos hrne]
  · have h0 : trackPoints g = [] := (trackPoints_eq_nil_iff g).mpr hall
    have hr0 : routePoints g = [] := (routePoints_eq_nil_iff g).mpr hr
    rw [collect_points_eq, if_neg (by simp [h0]), h0, hr0]
    simp

/-- Witness for `collect_points_priority` on three concrete documents:
one with a track point (and a route point and waypoint, which are
ignored), one with only a route point and a waypoint, and one with only
a waypoint. -/
theorem collect_points_priority_witness :
    collect_points ⟨[⟨[⟨[⟨1, 2, none⟩]⟩]⟩], [⟨[⟨3, 4, none⟩]⟩],
        [⟨5, 6, none⟩]⟩ =
      trackPoints ⟨[⟨[⟨[⟨1, 2, none⟩]⟩]⟩], [⟨[⟨3, 4, none⟩]⟩],
        [⟨5, 6, none⟩]⟩
    ∧ collect_points ⟨[], [⟨[⟨3, 4, none⟩]⟩], [⟨5, 6, none⟩]⟩ =
        routePoints ⟨[], [⟨[⟨3, 4, none⟩]⟩], [⟨5, 6, none⟩]⟩
    ∧ collect_points ⟨[], [], [⟨5, 6, none⟩]⟩ =
        ([⟨5, 6, none⟩] : List GeoPoint) :=
  ⟨(collect_points_priority _).1 (by decide),
   (collect_points_priority _).2.1 (by decide) (by decide),
   (collect_points_priority _).2.2 (by decide) (by decide)⟩

/-- The head of a sorted list bounds every element from below. -/
lemma headI_le_of_sorted {l : List ℚ} (hs : l.Sorted (· ≤ ·)) {x : ℚ}
    (hx : x ∈ l) : l.headI ≤ x := by
  cases l with
  | nil => cases hx
  | cons a t =>
    rcases List.mem_cons.mp hx with rfl | hx'
    · exact le_refl _
    · exact (List.sorted_cons.mp hs).1 x hx'

/-- Appending an upper bound keeps a list sorted. -/
lemma sorted_append_one {l : List ℚ} {x : ℚ} (hs : l.Sorted (· ≤ ·))
    (hx : ∀ y ∈ l, y ≤ x) : (l ++ [x]).Sorted (· ≤ ·) := by
  apply List.pairwise_append.mpr
  exact ⟨hs, List.pairwise_singleton _ _, fun a ha b hb => by
    rw [List.mem_singleton.mp hb]
    exact hx a ha⟩

/-- The head of a non-empty list is a member. -/
lemma headI_mem_of_ne_nil {l : List ℚ} (h : l ≠ []) : l.headI ∈ l := by
  cases l with
  | nil => exact absurd rfl h
  | cons a t => exact List.mem_cons_self a t

/-- Main run invariant under non-decreasing input offsets: given a
lower bound `b` for all input offsets and a sorted hit list bounded by
`b` from below and by every future offset from above, the run emits
events with non-decreasing offsets all at least `b`, keeps the hit list
sorted and at least `b`, and every emitted offset bounds every final
hit from below. -/
lemma processRun_inv (θ : ℕ) :
    ∀ (inputs : List (Option String × ℚ)) (st : DebounceState) (b : ℚ),
      (inputs.map Prod.snd).Sorted (· ≤ ·) →
      (∀ p ∈ inputs, b ≤ p.2) →
      st.candTimes.Sorted (· ≤ ·) →
      (∀ u ∈ st.candTimes, b ≤ u) →
      (∀ u ∈ st.candTimes, ∀ p ∈ inputs, u ≤ p.2) →
      ((processRun θ st inputs).2.map Prod.fst).Sorted (· ≤ ·)
      ∧ (∀ e ∈ (processRun θ st inputs).2, b ≤ e.1)
      ∧ (processRun θ st inputs).1.candTimes.Sorted (· ≤ ·)
      ∧ (∀ u ∈ (processRun θ st inputs).1.candTimes, b ≤ u)
      ∧ (∀ e ∈ (processRun θ st inputs).2,
          ∀ u ∈ (processRun θ st inputs).1.candTimes, e.1 ≤ u) := by
  intro inputs
  induction inputs with
  | nil =>
    intro st b _ _ h3 h4 _
    exact ⟨List.sorted_nil, by simp [processRun], h3, h4, by simp [processRun]⟩
  | cons p rest ih =>
    obtain ⟨street, T⟩ := p
    intro st b hmono hb h3 h4 h5
    have hmono' : (rest.map Prod.snd).Sorted (· ≤ ·) :=
      (List.sorted_cons.mp hmono).2
    have hTrest : ∀ p ∈ rest, T ≤ p.2 := fun p hp =>
      (List.sorted_cons.mp hmono).1 p.2 (List.mem_map_of_mem Prod.snd hp)
    have hbT : b ≤ T := hb (street, T) (List.mem_cons_self _ _)
    have hbrest : ∀ p ∈ rest, b ≤ p.2 := fun p hp =>
      hb p (List.mem_cons_of_mem _ hp)
    have hctT : ∀ u ∈ st.candTimes, u ≤ T := fun u hu =>
      h5 u hu (street, T) (List.mem_cons_self _ _)
    have hctrest : ∀ u ∈ st.candTimes, ∀ p ∈ rest, u ≤ p.2 :=
      fun u hu p hp => h5 u hu p (List.mem_cons_of_mem _ hp)
    rw [processRun_cons]
    rcases processStep_cases θ st street T with h | h | ⟨s, hst, hs, hcs, h⟩
      | ⟨s, hst, hs, hcs, h⟩ | ⟨s, hst, hs, hcs, h⟩ <;> rw [h] <;> dsimp only
    · -- skip: state unchanged, no event
      simpa using ih st b hmono' hbrest h3 h4 hctrest
    · -- reset on confirmed street: empty hit list
      simpa using ih { st with candStreet := none, candTimes := [] } b hmono'
        hbrest List.sorted_nil (by simp) (by simp)
    · -- fresh candidate: hit list [T]
      have hs1 : List.Sorted (· ≤ ·) ([T] : List ℚ) := List.sorted_singleton T
      have hs2 : ∀ u ∈ ([T] : List ℚ), b ≤ u := by
        intro u hu
        rw [List.mem_singleton.mp hu]
        exact hbT
      have hs3 : ∀ u ∈ ([T] : List ℚ), ∀ p ∈ rest, u ≤ p.2 := by
        intro u hu p hp
        rw [List.mem_singleton.mp hu]
        exact hTrest p hp
      simpa using ih { st with candStreet := some s, candTimes := [T] } b
        hmono' hbrest hs1 hs2 hs3
    · -- below-threshold hit: hit list grows by T
      have hs1 : (st.candTimes ++ [T]).Sorted (· ≤ ·) :=
        sorted_append_one h3 hctT
      have hs2 : ∀ u ∈ st.candTimes ++ [T], b ≤ u := by
        intro u hu
        rcases List.mem_append.mp hu with hu' | hu'
        · exact h4 u hu'
        · rw [List.mem_singleton.mp hu']
          exact hbT
      have hs3 : ∀ u ∈ st.candTimes ++ [T], ∀ p ∈ rest, u ≤ p.2 := by
        intro u hu p hp
        rcases List.mem_append.mp hu with hu' | hu'
        · exact hctrest u hu' p hp
        · rw [List.mem_singleton.mp hu']
          exact hTrest p hp
      simpa using ih { st with candTimes := st.candTimes ++ [T] } b
        hmono' hbrest hs1 hs2 hs3
    · -- confirming hit
      have hsorted' : (st.candTimes ++ [T]).Sorted (· ≤ ·) :=
        sorted_append_one h3 hctT
      have hne : st.candTimes ++ [T] ≠ [] := by simp
      have h0mem : (st.candTimes ++ [T]).headI ∈ st.candTimes ++ [T] :=
        headI_mem_of_ne_nil hne
      have hball : ∀ u ∈ st.candTimes ++ [T], b ≤ u := by
        intro u hu
        rcases List.mem_append.mp hu with hu' | hu'
        · exact h4 u hu'
        · rw [List.mem_singleton.mp hu']
          exact hbT
      have hrestall : ∀ u ∈ st.candTimes ++ [T], ∀ p ∈ rest, u ≤ p.2 := by
        intro u hu p hp
        rcases List.mem_append.mp hu with hu' | hu'
        · exact hctrest u hu' p hp
        · rw [List.mem_singleton.mp hu']
          exact hTrest p hp
      have hbh0 : b ≤ (st.candTimes ++ [T]).headI := hball _ h0mem
      have h0le : ∀ u ∈ st.candTimes ++ [T], (st.candTimes ++ [T]).headI ≤ u :=
        fun u hu => headI_le_of_sorted hsorted' hu
      have h0rest : ∀ p ∈ rest, (st.candTimes ++ [T]).headI ≤ p.2 :=
        hrestall _ h0mem
      obtain ⟨ih1, ih2, ih3, ih4, ih5⟩ :=
        ih ⟨some s, some s, st.candTimes ++ [T]⟩ ((st.candTimes ++ [T]).headI)
          hmono' h0rest hsorted' h0le hrestall
      refine ⟨?_, ?_, ih3, ?_, ?_⟩
      · rw [Option.toList_some, List.singleton_append, List.map_cons]
        exact List.sorted_cons.mpr ⟨fun y hy => by
          obtain ⟨e, he, rfl⟩ := List.mem_map.mp hy
          exact ih2 e he, ih1⟩
      · intro e he
        rw [Option.toList_some, List.singleton_append] at he
        rcases List.mem_cons.mp he with rfl | he'
        · exact hbh0
        · exact le_trans hbh0 (ih2 e he')
      · intro u hu
        exact le_trans hbh0 (ih4 u hu)
      · intro e he u hu
        rw [Option.toList_some, List.singleton_append] at he
        rcases List.mem_cons.mp he with rfl | he'
        · exact ih4 u hu
        · exact ih5 e he' u hu

/-- If finalization emits an event, the candidate street was live and
the event offset is the head of the hit list. -/
lemma finalizeStep_eq_some {fθ : ℕ} {st : DebounceState} {t : ℚ}
    {c : String} (h : finalizeStep fθ st = some (t, c)) :
    st.candStreet = some c ∧ t = st.candTimes.headI := by
  unfold finalizeStep at h
  cases hcs : st.candStreet with
  | none => rw [hcs] at h; cases h
  | some c' =>
    rw [hcs] at h
    simp only at h
    by_cases h1 : c' = ""
    · rw [if_pos h1] at h; cases h
    · rw [if_neg h1] at h
      by_cases h2 : some c' = st.confirmed
      · rw [if_pos h2] at h; cases h
      · rw [if_neg h2] at h
        by_cases h3 : fθ ≤ st.candTimes.length
        · rw [if_pos h3] at h
          injection h with h4
          injection h4 with h5 h6
          exact ⟨by rw [h6], h5.symm⟩
        · rw [if_neg h3] at h; cases h

/-- Claim C4 (amended): when the retained samples' offsets are
non-decreasing, then at every point of a run from the initial state the
hit list is non-decreasing; a step that keeps a live candidate alive
never changes the first element of a non-empty hit list; and the
emitted events — including a final event from finalization — appear in
non-decreasing offset order.  (Without the monotonicity hypothesis this
fails: the code assigns offset 0.0 to a sample lacking a timestamp even
mid-sequence, see the counterexample.) -/
theorem debounce_monotone (θ : ℕ) (inputs : List (Option String × ℚ))
    (hmono : (inputs.map Prod.snd).Sorted (· ≤ ·)) :
    (∀ n : ℕ,
      ((processRun θ initState (inputs.take n)).1.candTimes.Sorted (· ≤ ·)))
    ∧ (∀ (st : DebounceState) (street : Option String) (T : ℚ),
        st.candStreet ≠ none → st.candTimes ≠ [] →
        (processStep θ st street T).1.candStreet = st.candStreet →
        (processStep θ st street T).1.candTimes.headI = st.candTimes.headI)
    ∧ (((processRun θ initState inputs).2.map Prod.fst).Sorted (· ≤ ·))
    ∧ (∀ fθ : ℕ,
        (((processRun θ initState inputs).2 ++
          (finalizeStep fθ (processRun θ initState inputs).1).toList).map
            Prod.fst).Sorted (· ≤ ·)) := by
  have key : ∀ l : List (Option String × ℚ), (l.map Prod.snd).Sorted (· ≤ ·) →
      ((processRun θ initState l).2.map Prod.fst).Sorted (· ≤ ·)
      ∧ (processRun θ initState l).1.candTimes.Sorted (· ≤ ·)
      ∧ (∀ e ∈ (processRun θ initState l).2,
          ∀ u ∈ (processRun θ initState l).1.candTimes, e.1 ≤ u) := by
    intro l hl
    have hb : ∀ p ∈ l, (l.map Prod.snd).headI ≤ p.2 := fun p hp =>
      headI_le_of_sorted hl (List.mem_map_of_mem Prod.snd hp)
    obtain ⟨c1, _, c3, _, c5⟩ := processRun_inv θ l initState
      ((l.map Prod.snd).headI) hl hb List.sorted_nil (by simp [initState])
      (by simp [initState])
    exact ⟨c1, c3, c5⟩
  refine ⟨fun n => ?_, fun st street T hlive hne hsame => ?_,
    (key inputs hmono).1, fun fθ => ?_⟩
  · have hsubs : ((inputs.take n).map Prod.snd).Sorted (· ≤ ·) := by
      rw [List.map_take]
      exact hmono.sublist (List.take_sublist n _)
    exact (key _ hsubs).2.1
  · rcases processStep_cases θ st street T with h | h | ⟨s, hst, hs, hcs, h⟩
      | ⟨s, hst, hs, hcs, h⟩ | ⟨s, hst, hs, hcs, h⟩
    · rw [h]
    · rw [h] at hsame
      exact absurd hsame.symm hlive
    · rw [h] at hsame
      exact absurd hsame.symm hcs
    · rw [h]
      rcases hct : st.candTimes with _ | ⟨a, l⟩
      · exact absurd hct hne
      · rfl
    · rw [h]
      rcases hct : st.candTimes with _ | ⟨a, l⟩
      · exact absurd hct hne
      · rfl
  · rcases hf : finalizeStep fθ (processRun θ initState inputs).1 with _ | e
    · simpa using (key inputs hmono).1
    · obtain ⟨t, c⟩ := e
      obtain ⟨hcs, ht⟩ := finalizeStep_eq_some hf
      have hwf := processRun_wf θ inputs initState (by simp [initState])
        (by simp [initState]) (by simp [initState])
      have hlive : (processRun θ initState inputs).1.candStreet ≠ none := by
        rw [hcs]
        simp
      have hnonempty := hwf.2.2 hlive
      have hmem := headI_mem_of_ne_nil hnonempty
      rw [Option.toList_some, List.map_append, List.map_singleton]
      apply List.pairwise_append.mpr
      refine ⟨(key inputs hmono).1, List.pairwise_singleton _ _, ?_⟩
      intro a ha bb hbb
      obtain ⟨e, he, rfl⟩ := List.mem_map.mp ha
      rw [List.mem_singleton.mp hbb]
      show e.1 ≤ (t, c).1
      rw [ht]
      exact (key inputs hmono).2.2 e he _ hmem

/-- Claim C4 counterexample: a sample without a timestamp mid-sequence
gets offset 0.0, so the full pipeline can emit events with DECREASING
offsets: confirming "A" at offset 100, then "B" from two untimed
samples at offset 0. -/
theorem debounce_monotone_cex :
    (process_points 1 2 2
      [⟨none, some 0⟩, ⟨some "A", some 100⟩, ⟨some "A", some 110⟩,
       ⟨some "B", none⟩, ⟨some "B", none⟩]).map Prod.fst = [100, 0]
    ∧ ¬ (((process_points 1 2 2
      [⟨none, some 0⟩, ⟨some "A", some 100⟩, ⟨some "A", some 110⟩,
       ⟨some "B", none⟩, ⟨some "B", none⟩]).map Prod.fst).Sorted (· ≤ ·)) := by
  have h1 : retainedInputs 1
      [⟨none, some 0⟩, ⟨some "A", some 100⟩, ⟨some "A", some 110⟩,
       ⟨some "B", none⟩, ⟨some "B", none⟩] =
      [(none, 0), (some "A", 100), (some "A", 110),
       (some "B", 0), (some "B", 0)] := by
    norm_num [retainedInputs, startTime, offsetOf, List.enum,
      List.enumFrom, List.filterMap_cons]
  have h2 : processRun 2 initState
      [(none, (0 : ℚ)), (some "A", 100), (some "A", 110),
       (some "B", 0), (some "B", 0)] =
      (⟨some "B", some "B", [0, 0]⟩, [(100, "A"), (0, "B")]) := by
    simp [processRun_cons, processStep, processRun, initState]
  have h : process_points 1 2 2
      [⟨none, some 0⟩, ⟨some "A", some 100⟩, ⟨some "A", some 110⟩,
       ⟨some "B", none⟩, ⟨some "B", none⟩] = [(100, "A"), (0, "B")] := by
    unfold process_points
    rw [h1, h2]
    rfl
  rw [h]
  refine ⟨rfl, ?_⟩
  intro hs
  have := (List.sorted_cons.mp hs).1 0 (by simp)
  norm_num at this

/-- Witness for `debounce_monotone`: threshold 2 over two "A" samples
at offsets 1 and 2. -/
theorem debounce_monotone_witness :
    (∀ n : ℕ,
      ((processRun 2 initState
        ([(some "A", 1), (some "A", 2)].take n)).1.candTimes.Sorted (· ≤ ·)))
    ∧ (∀ (st : DebounceState) (street : Option String) (T : ℚ),
        st.candStreet ≠ none → st.candTimes ≠ [] →
        (processStep 2 st street T).1.candStreet = st.candStreet →
        (processStep 2 st street T).1.candTimes.headI = st.candTimes.headI)
    ∧ (((processRun 2 initState
        [(some "A", 1), (some "A", 2)]).2.map Prod.fst).Sorted (· ≤ ·))
    ∧ (∀ fθ : ℕ,
        (((processRun 2 initState [(some "A", 1), (some "A", 2)]).2 ++
          (finalizeStep fθ (processRun 2 initState
            [(some "A", 1), (some "A", 2)]).1).toList).map
              Prod.fst).Sorted (· ≤ ·)) :=
  debounce_monotone 2 [(some "A", 1), (some "A", 2)]
    (by simp [List.sorted_cons])

end GpxStreetExtractor
